import Mathlib

set_option maxRecDepth 100000
set_option maxHeartbeats 4000000

/-!
Shallow embedding of the ArduinoHuffman codec (src/huffman_compression.cpp).

Bytes are modelled as `Nat` values in [0,255]; `std::string` values are
`List Nat` of byte values; the 256-slot tables (`std::array`) are functions
`Nat → _`.  A `std::shared_ptr<Node>` is modelled by the inductive `Node`,
whose `null` constructor is the null pointer.  Fallible operations (failed
stream reads, null-pointer dereference, `pq.top()` on an empty queue) return
`Option`, with `none` marking the failure / undefined-behaviour state.

`char` is modelled as signed 8-bit where the source compares it as a signed
quantity (the dictionary-size and code-length fields), matching the default
signedness of `char` on the x86 and AVR targets this code is built for.
-/

/-- Huffman tree node, as the C++ `std::shared_ptr<Node>`: either the null
pointer or a node with a character, a frequency and two child pointers. -/
inductive Node where
  | null : Node
  | node (character : Nat) (frequency : Nat) (left : Node) (right : Node) : Node
deriving DecidableEq

/-- `p->frequency` (only ever dereferenced on non-null pointers). -/
def Node.frequency : Node → Nat
  | .null => 0
  | .node _ f _ _ => f

/-- `p->character`. -/
def Node.character : Node → Nat
  | .null => 0
  | .node c _ _ _ => c

/-- `p->left`. -/
def Node.left : Node → Node
  | .null => .null
  | .node _ _ l _ => l

/-- `p->right`. -/
def Node.right : Node → Node
  | .null => .null
  | .node _ _ _ r => r

/-- `fill_frequency`: increment the table slot of each byte of the text. -/
def fill_frequency : List Nat → (Nat → Nat) → (Nat → Nat)
  | [], frequency => frequency
  | ch :: rest, frequency => fill_frequency rest (Function.update frequency ch (frequency ch + 1))

/-- `pq.push`: the min-priority queue (`Node::Compare` orders by
`frequency`, smallest on top) is refined by a list sorted by ascending
frequency; a new node goes after existing nodes of equal frequency. -/
def pq_push (n : Node) : List Node → List Node
  | [] => [n]
  | m :: ms => if n.frequency < m.frequency then n :: m :: ms else m :: pq_push n ms

/-- The initial queue of `build_huffman_tree`: one leaf per byte value
`i < 256` with `frequency i > 0`, pushed in ascending order of `i`. -/
def init_queue (frequency : Nat → Nat) : List Node :=
  (List.range 256).foldl
    (fun pq i => if frequency i > 0 then pq_push (Node.node i (frequency i) .null .null) pq else pq)
    []

/-- The merge loop of `build_huffman_tree`: while the queue holds more than
one node, pop the two smallest, merge them under a `'+'` (= 43) parent whose
frequency is the sum, and push the parent back.  The first argument is fuel
bounding the number of merges (each merge shrinks the queue by one, so any
fuel at least the queue's length suffices); it only makes the recursion
structural and never runs out when `build_loop` supplies it. -/
def build_loop_fuel : Nat → List Node → List Node
  | _, [] => []
  | _, [a] => [a]
  | 0, pq => pq
  | fuel + 1, a :: b :: rest =>
      build_loop_fuel fuel (pq_push (Node.node 43 (a.frequency + b.frequency) a b) rest)

/-- The merge loop run to completion on a queue. -/
def build_loop (pq : List Node) : List Node :=
  build_loop_fuel pq.length pq

/-- `build_huffman_tree`: run the merge loop and return `pq.top()`.
On an all-zero table the queue is empty and `pq.top()` is undefined
behaviour, modelled as `none`. -/
def build_huffman_tree (frequency : Nat → Nat) : Option Node :=
  match build_loop (init_queue frequency) with
  | [] => none
  | n :: _ => some n

/-- `generate_dictionary`: depth-first walk assigning to each leaf character
the accumulated code, `'0'` (= 48) appended when descending left and `'1'`
(= 49) when descending right.  A node with a single null child recurses only
into its non-null child, exactly as the two `if` statements do. -/
def generate_dictionary : Node → List Nat → (Nat → List Nat) → (Nat → List Nat)
  | .null, _, dict => dict
  | .node c _ .null .null, code, dict => Function.update dict c code
  | .node _ _ l r, code, dict =>
      generate_dictionary r (code ++ [49]) (generate_dictionary l (code ++ [48]) dict)

/-- `encode_text`: concatenate, in input order, each byte's code. -/
def encode_text : List Nat → (Nat → List Nat) → List Nat
  | [], _ => []
  | ch :: rest, dict => dict ch ++ encode_text rest dict

/-- The `count_if` computing `dict_size` in `write_compressed_file`: the
number of byte values with a non-empty code. -/
def dict_size (dict : Nat → List Nat) : Nat :=
  ((List.range 256).filter (fun i => !(dict i).isEmpty)).length

/-- The per-symbol header entries of `write_compressed_file`: for each
`i < 256` with a non-empty code, the byte `i`, the code's length (stored in
one `char`, hence mod 256) and the code's characters written verbatim. -/
def dict_entries (dict : Nat → List Nat) : List Nat :=
  (((List.range 256).filter (fun i => !(dict i).isEmpty)).map
    (fun i => i :: ((dict i).length % 256) :: dict i)).flatten

/-- The bit-packing loop of `write_compressed_file`: each `'1'` (= 49)
character sets bit `7 - bit_pos` of the current buffer byte; a full buffer
is flushed; a non-empty trailing buffer is flushed with its unused low bits
still zero. -/
def pack_bits : List Nat → Nat → Nat → List Nat
  | [], buffer, bit_pos => if bit_pos > 0 then [buffer] else []
  | bit :: rest, buffer, bit_pos =>
      let buffer' := if bit = 49 then buffer ||| (1 <<< (7 - bit_pos)) else buffer
      if bit_pos + 1 = 8 then buffer' :: pack_bits rest 0 0
      else pack_bits rest buffer' (bit_pos + 1)

/-- `write_compressed_file`: the produced file is the dictionary-size byte
(a `char`, hence the count mod 256), the per-symbol entries, then the
bit-packed payload. -/
def write_compressed_file (dict : Nat → List Nat) (encoded_text : List Nat) : List Nat :=
  (dict_size dict % 256) :: (dict_entries dict ++ pack_bits encoded_text 0 0)

/-- `compress_file`: histogram, tree, dictionary, encode, write.  `none`
marks the undefined behaviour reached on an all-zero histogram. -/
def compress_file (dataset : List Nat) : Option (List Nat) :=
  let frequency := fill_frequency dataset (fun _ => 0)
  match build_huffman_tree frequency with
  | none => none
  | some huffman_tree =>
      let dict := generate_dictionary huffman_tree [] (fun _ => [])
      let encoded_text := encode_text dataset dict
      some (write_compressed_file dict encoded_text)

/-- The path walk of `read_huffman_dictionary`: follow the code's bytes from
`n`, going left on `'0'` (= 48) and right on anything else, creating a fresh
`'+'` node wherever the needed child is null, and store the character in the
node the walk ends at (children and frequency are kept as they are). -/
def insert_code (n : Node) (code : List Nat) (ch : Nat) : Node :=
  match code, n with
  | _, .null => .null
  | [], .node _ f l r => .node ch f l r
  | bit :: rest, .node c f l r =>
      if bit = 48 then
        let l' := match l with
          | .null => Node.node 43 0 .null .null
          | _ => l
        .node c f (insert_code l' rest ch) r
      else
        let r' := match r with
          | .null => Node.node 43 0 .null .null
          | _ => r
        .node c f l (insert_code r' rest ch)

/-- The entry loop of `read_huffman_dictionary`: read a character byte, a
code-length byte and that many code bytes, and graft the code into the tree.
A code-length byte ≥ 128 is a negative `char`, making `code.resize` blow up
(modelled `none`); a read past the end of the stream fails (`none`). -/
def read_dict_entries : Nat → Node → List Nat → Option (Node × List Nat)
  | 0, root, s => some (root, s)
  | n + 1, root, s =>
      match s with
      | character :: code_length :: rest =>
          if code_length < 128 ∧ code_length ≤ rest.length then
            read_dict_entries n (insert_code root (rest.take code_length) character)
              (rest.drop code_length)
          else none
      | _ => none

/-- The value of a byte read into a `char` and used in a signed comparison. -/
def signed_char (b : Nat) : Int :=
  if b < 128 then (b : Int) else (b : Int) - 256

/-- `read_huffman_dictionary`: read the dictionary-size `char` and run the
entry loop `(int)dict_size` times — zero times when the byte, read as a
signed `char`, is negative. -/
def read_huffman_dictionary (s : List Nat) (root : Node) : Option (Node × List Nat) :=
  match s with
  | [] => none
  | dict_size_byte :: rest => read_dict_entries (signed_char dict_size_byte).toNat root rest

/-- The eight bits of a payload byte, most significant first
(`buffer & (1 << i)` for `i = 7 .. 0`). -/
def byte_bits (b : Nat) : List Bool :=
  [b.testBit 7, b.testBit 6, b.testBit 5, b.testBit 4,
   b.testBit 3, b.testBit 2, b.testBit 1, b.testBit 0]

/-- The inner (per-byte) loop of `decode_data`: step to the left child on a
0 bit and to the right child on a 1 bit (a null child is a null-pointer
dereference, `none`); on reaching a leaf append its character and return to
the root; `break` out of the byte once `bit_count` reaches `encoded_length`. -/
def decode_inner (root : Node) :
    List Bool → Node → Nat → Nat → List Nat → Option (Node × Nat × List Nat)
  | [], current, bit_count, _, acc => some (current, bit_count, acc)
  | bit :: restBits, current, bit_count, encoded_length, acc =>
      match (if bit then current.right else current.left) with
      | .null => none
      | .node ch f l r =>
          let step : Node × List Nat :=
            match l, r with
            | .null, .null => (root, acc ++ [ch])
            | _, _ => (Node.node ch f l r, acc)
          if encoded_length ≤ bit_count + 1 then some (step.1, bit_count + 1, step.2)
          else decode_inner root restBits step.1 (bit_count + 1) encoded_length step.2

/-- The outer (`while (infile.read ...)`) loop of `decode_data`: consume the
remaining stream byte by byte (the inner `break` does not leave this loop). -/
def decode_go (root : Node) (encoded_length : Nat) :
    List Nat → Node → Nat → List Nat → Option (List Nat)
  | [], _, _, acc => some acc
  | byte :: rest, current, bit_count, acc =>
      match decode_inner root (byte_bits byte) current bit_count encoded_length acc with
      | none => none
      | some (c, bc, acc') => decode_go root encoded_length rest c bc acc'

/-- `decode_data` on the remaining stream, starting at the root with
`bit_count = 0`. -/
def decode_data (stream : List Nat) (root : Node) (encoded_length : Nat) : Option (List Nat) :=
  decode_go root encoded_length stream root 0 []

/-- The fresh `'+'` root `decompress_file` builds before reading. -/
def initial_root : Node := Node.node 43 0 .null .null

/-- `decompress_file`: read the dictionary, then `seekg(0, end)`,
`tellg()`, `seekg(-1, cur)` — i.e. decode from the file's last byte only —
passing the total file size in bytes as `encoded_length`. -/
def decompress_file (file : List Nat) : Option (List Nat) :=
  match read_huffman_dictionary file initial_root with
  | none => none
  | some (root, _) => decode_data (file.drop (file.length - 1)) root file.length

/-! ### Structural invariants of the built tree -/

/-- Checks that every node of a tree has zero or two children and that the
frequency of every two-child node is the sum of its children's frequencies. -/
def well_formed : Node → Bool
  | .null => true
  | .node _ f l r =>
      match l, r with
      | .null, .null => true
      | .null, .node _ _ _ _ => false
      | .node _ _ _ _, .null => false
      | .node c1 f1 l1 r1, .node c2 f2 l2 r2 =>
          (f == Node.frequency (.node c1 f1 l1 r1) + Node.frequency (.node c2 f2 l2 r2)) &&
          well_formed (.node c1 f1 l1 r1) && well_formed (.node c2 f2 l2 r2)

theorem mem_pq_push {x n : Node} : ∀ {pq : List Node}, x ∈ pq_push n pq → x = n ∨ x ∈ pq := by
  intro pq
  induction pq with
  | nil => intro h; simpa [pq_push] using h
  | cons m ms ih =>
      intro h
      simp only [pq_push] at h
      split at h
      · rcases List.mem_cons.mp h with h | h
        · exact Or.inl h
        · exact Or.inr h
      · rcases List.mem_cons.mp h with h | h
        · exact Or.inr (List.mem_cons.mpr (Or.inl h))
        · rcases ih h with h' | h'
          · exact Or.inl h'
          · exact Or.inr (List.mem_cons.mpr (Or.inr h'))

theorem build_loop_fuel_invariant (P : Node → Prop)
    (hmerge : ∀ a b, P a → P b → P (Node.node 43 (a.frequency + b.frequency) a b)) :
    ∀ (fuel : Nat) (pq : List Node), (∀ x ∈ pq, P x) → ∀ x ∈ build_loop_fuel fuel pq, P x := by
  intro fuel
  induction fuel with
  | zero =>
      intro pq hpq x hx
      match pq, hx with
      | [], hx => cases hx
      | [a], hx => exact hpq x hx
      | a :: b :: rest, hx => exact hpq x hx
  | succ fuel ih =>
      intro pq hpq x hx
      match pq, hx with
      | [], hx => cases hx
      | [a], hx => exact hpq x hx
      | a :: b :: rest, hx =>
          refine ih _ ?_ x hx
          intro y hy
          rcases mem_pq_push hy with h | h
          · subst h
            exact hmerge a b (hpq a (by simp)) (hpq b (by simp))
          · exact hpq y (by simp [h])

theorem mem_init_queue {frequency : Nat → Nat} {x : Node} (h : x ∈ init_queue frequency) :
    ∃ i, x = Node.node i (frequency i) .null .null := by
  suffices H : ∀ (l : List Nat) (pq : List Node),
      (∀ y ∈ pq, ∃ i, y = Node.node i (frequency i) .null .null) →
      ∀ y ∈ l.foldl
        (fun pq i =>
          if frequency i > 0 then pq_push (Node.node i (frequency i) .null .null) pq else pq) pq,
      ∃ i, y = Node.node i (frequency i) .null .null by
    exact H (List.range 256) [] (by simp) x h
  intro l
  induction l with
  | nil => intro pq hpq y hy; exact hpq y hy
  | cons j rest ih =>
      intro pq hpq y hy
      simp only [List.foldl_cons] at hy
      refine ih _ ?_ y hy
      intro z hz
      by_cases hj : frequency j > 0
      · rw [if_pos hj] at hz
        rcases mem_pq_push hz with h' | h'
        · exact ⟨j, h'⟩
        · exact hpq z h'
      · rw [if_neg hj] at hz
        exact hpq z hz

/-! ### The code dictionary as root-to-leaf paths -/

/-- The (character, path) pairs `generate_dictionary` assigns, in assignment
order: a leaf contributes its character with the empty relative path, an
internal node prepends 48 (`'0'`) to every path of its left subtree and 49
(`'1'`) to every path of its right subtree. -/
def codewords : Node → List (Nat × List Nat)
  | .null => []
  | .node c _ .null .null => [(c, [])]
  | .node _ _ l r =>
      (codewords l).map (fun p => (p.1, 48 :: p.2)) ++
      (codewords r).map (fun p => (p.1, 49 :: p.2))

theorem generate_dictionary_eq :
    ∀ (t : Node) (code : List Nat) (dict : Nat → List Nat),
    generate_dictionary t code dict
      = (codewords t).foldl (fun (d : Nat → List Nat) p => Function.update d p.1 (code ++ p.2)) dict := by
  intro t
  induction t with
  | null => intro code dict; simp [generate_dictionary, codewords]
  | node c f l r ihl ihr =>
      intro code dict
      cases l with
      | null =>
          cases r with
          | null => simp [generate_dictionary, codewords]
          | node c2 f2 l2 r2 =>
              simp only [generate_dictionary, codewords, ihl, ihr, List.foldl_map,
                List.foldl_append, List.foldl_nil, List.map_nil, List.nil_append]
              simp [List.append_assoc]
      | node c1 f1 l1 r1 =>
          cases r with
          | null =>
              simp only [generate_dictionary, codewords, ihl, ihr, List.foldl_map,
                List.foldl_append, List.foldl_nil, List.map_nil, List.append_nil]
              simp [List.append_assoc]
          | node c2 f2 l2 r2 =>
              simp only [generate_dictionary, codewords, ihl, ihr, List.foldl_map,
                List.foldl_append]
              simp [List.append_assoc]

theorem foldl_update_lookup (code : List Nat) :
    ∀ (entries : List (Nat × List Nat)) (d : Nat → List Nat) (x : Nat),
      (entries.foldl (fun (d : Nat → List Nat) p => Function.update d p.1 (code ++ p.2)) d) x = d x ∨
      ∃ p, (x, p) ∈ entries ∧
        (entries.foldl (fun (d : Nat → List Nat) p => Function.update d p.1 (code ++ p.2)) d) x = code ++ p := by
  intro entries
  induction entries with
  | nil => intro d x; exact Or.inl rfl
  | cons e rest ih =>
      intro d x
      simp only [List.foldl_cons]
      rcases ih (Function.update d e.1 (code ++ e.2)) x with h | ⟨p, hp, hval⟩
      · rw [h, Function.update_apply]
        by_cases hx : x = e.1
        · right
          refine ⟨e.2, ?_, by simp [hx]⟩
          subst hx
          exact List.mem_cons.mpr (Or.inl (Prod.ext rfl rfl))
        · left; simp [hx]
      · right; exact ⟨p, List.mem_cons.mpr (Or.inr hp), hval⟩

theorem no_overlap_step {L R : List (Nat × List Nat)}
    (hL : ∀ {a b : Nat} {p q : List Nat},
      (a, p) ∈ L → (b, q) ∈ L → (∃ s, p ++ s = q) → a = b ∧ p = q)
    (hR : ∀ {a b : Nat} {p q : List Nat},
      (a, p) ∈ R → (b, q) ∈ R → (∃ s, p ++ s = q) → a = b ∧ p = q)
    {a b : Nat} {p q : List Nat}
    (hp : (a, p) ∈ L.map (fun p => (p.1, 48 :: p.2)) ++ R.map (fun p => (p.1, 49 :: p.2)))
    (hq : (b, q) ∈ L.map (fun p => (p.1, 48 :: p.2)) ++ R.map (fun p => (p.1, 49 :: p.2)))
    (hs : ∃ s, p ++ s = q) : a = b ∧ p = q := by
  obtain ⟨s, hs⟩ := hs
  simp only [List.mem_append, List.mem_map, Prod.mk.injEq] at hp hq
  rcases hp with ⟨⟨a', p'⟩, hp', ha', hpp⟩ | ⟨⟨a', p'⟩, hp', ha', hpp⟩ <;>
    rcases hq with ⟨⟨b', q'⟩, hq', hb', hqq⟩ | ⟨⟨b', q'⟩, hq', hb', hqq⟩ <;>
      subst ha' <;> subst hb' <;> rw [← hpp, ← hqq] at hs ⊢
  · obtain ⟨rfl, rfl⟩ := hL hp' hq' ⟨s, by injection hs⟩
    exact ⟨rfl, rfl⟩
  · simp at hs
  · simp at hs
  · obtain ⟨rfl, rfl⟩ := hR hp' hq' ⟨s, by injection hs⟩
    exact ⟨rfl, rfl⟩

theorem codewords_no_overlap :
    ∀ (t : Node) {a b : Nat} {p q : List Nat},
      (a, p) ∈ codewords t → (b, q) ∈ codewords t → (∃ s, p ++ s = q) → a = b ∧ p = q := by
  intro t
  induction t with
  | null => intro a b p q hp _ _; simp [codewords] at hp
  | node c f l r ihl ihr =>
      intro a b p q hp hq hs
      cases l with
      | null =>
          cases r with
          | null =>
              simp only [codewords, List.mem_singleton, Prod.mk.injEq] at hp hq
              exact ⟨hp.1.trans hq.1.symm, hp.2.trans hq.2.symm⟩
          | node c2 f2 l2 r2 =>
              exact no_overlap_step (fun h _ _ => by simp [codewords] at h)
                (fun hx hy h => ihr hx hy h) hp hq hs
      | node c1 f1 l1 r1 =>
          cases r with
          | null =>
              exact no_overlap_step (fun hx hy h => ihl hx hy h)
                (fun h _ _ => by simp [codewords] at h) hp hq hs
          | node c2 f2 l2 r2 =>
              exact no_overlap_step (fun hx hy h => ihl hx hy h)
                (fun hx hy h => ihr hx hy h) hp hq hs

theorem codewords_bits :
    ∀ (t : Node) {x : Nat} {p : List Nat}, (x, p) ∈ codewords t → ∀ b ∈ p, b = 48 ∨ b = 49 := by
  intro t
  induction t with
  | null => intro x p hp; simp [codewords] at hp
  | node c f l r ihl ihr =>
      intro x p hp
      cases l with
      | null =>
          cases r with
          | null =>
              simp only [codewords, List.mem_singleton, Prod.mk.injEq] at hp
              rw [hp.2]; intro b hb; cases hb
          | node c2 f2 l2 r2 =>
              simp only [codewords, List.map_nil, List.nil_append, List.mem_map,
                Prod.mk.injEq] at hp
              obtain ⟨⟨x', p'⟩, hp', _, hpp⟩ := hp
              rw [← hpp]
              intro b hb
              rcases List.mem_cons.mp hb with h | h
              · exact Or.inr (by omega)
              · exact ihr hp' b h
      | node c1 f1 l1 r1 =>
          have key : ∀ {LR : List (Nat × List Nat)} (bitc : Nat),
              (bitc = 48 ∨ bitc = 49) →
              (∀ {x' : Nat} {p' : List Nat}, (x', p') ∈ LR → ∀ b ∈ p', b = 48 ∨ b = 49) →
              ∀ {x' : Nat} {p' : List Nat},
                (x', p') ∈ LR.map (fun p => (p.1, bitc :: p.2)) → ∀ b ∈ p', b = 48 ∨ b = 49 := by
            intro LR bitc hbitc hLR x' p' hmem b hb
            simp only [List.mem_map, Prod.mk.injEq] at hmem
            obtain ⟨⟨y, py⟩, hy, _, hpp⟩ := hmem
            rw [← hpp] at hb
            rcases List.mem_cons.mp hb with h | h
            · rw [h]; exact hbitc
            · exact hLR hy b h
          cases r with
          | null =>
              simp only [codewords, List.map_nil, List.append_nil] at hp
              exact key 48 (Or.inl rfl) (fun hm => ihl hm) hp
          | node c2 f2 l2 r2 =>
              simp only [codewords, List.mem_append] at hp
              rcases hp with hp | hp
              · exact key 48 (Or.inl rfl) (fun hm => ihl hm) hp
              · exact key 49 (Or.inr rfl) (fun hm => ihr hm) hp

/-! ### MSB-first bit packing -/

/-- Numeric value (0 or 1) of a textual code character: `'1'` (= 49) is the
only byte the packer treats as a set bit. -/
def bit_val (b : Nat) : Nat := if b = 49 then 1 else 0

/-- Value of a byte whose bits, most significant first, are the given code
characters. -/
def bits_to_byte (l : List Nat) : Nat :=
  l.foldl (fun acc b => 2 * acc + bit_val b) 0

/-- Modelled from the spec (§4.6 Packer): the concatenated bit sequence is
split into groups of eight, the final group is padded at its low end with
zero bits, and each group becomes one byte MSB-first.  Comparison target for
the source's `pack_bits` loop. -/
def pack_msb_spec : List Nat → List Nat
  | [] => []
  | b :: rest =>
      bits_to_byte ((b :: rest).take 8 ++ List.replicate (8 - ((b :: rest).take 8).length) 48) ::
      pack_msb_spec ((b :: rest).drop 8)
termination_by l => l.length
decreasing_by simp; omega

theorem pack_msb_spec_ne_nil (l : List Nat) (h : l ≠ []) :
    pack_msb_spec l
      = bits_to_byte (l.take 8 ++ List.replicate (8 - (l.take 8).length) 48)
        :: pack_msb_spec (l.drop 8) := by
  cases l with
  | nil => exact absurd rfl h
  | cons b rest => rw [pack_msb_spec]

theorem bits_foldl_replicate (k : Nat) :
    ∀ acc : Nat, (List.replicate k 48).foldl (fun acc b => 2 * acc + bit_val b) acc
      = acc * 2 ^ k := by
  induction k with
  | zero => intro acc; simp
  | succ k ih =>
      intro acc
      rw [List.replicate_succ, List.foldl_cons, ih]
      simp [bit_val]
      ring

theorem bits_to_byte_pad (l : List Nat) (k : Nat) :
    bits_to_byte (l ++ List.replicate k 48) = bits_to_byte l * 2 ^ k := by
  unfold bits_to_byte
  rw [List.foldl_append, bits_foldl_replicate]

theorem bits_to_byte_snoc (l : List Nat) (b : Nat) :
    bits_to_byte (l ++ [b]) = 2 * bits_to_byte l + bit_val b := by
  unfold bits_to_byte
  rw [List.foldl_append]
  rfl

theorem bits_to_byte_lt (l : List Nat) : bits_to_byte l < 2 ^ l.length := by
  suffices H : ∀ (l : List Nat) (acc : Nat),
      l.foldl (fun acc b => 2 * acc + bit_val b) acc < (acc + 1) * 2 ^ l.length by
    have := H l 0
    simpa [bits_to_byte] using this
  intro l
  induction l with
  | nil => intro acc; simp
  | cons b rest ih =>
      intro acc
      have hb : bit_val b ≤ 1 := by unfold bit_val; split <;> omega
      calc rest.foldl (fun acc b => 2 * acc + bit_val b) (2 * acc + bit_val b)
          < (2 * acc + bit_val b + 1) * 2 ^ rest.length := ih _
        _ ≤ (2 * (acc + 1)) * 2 ^ rest.length := Nat.mul_le_mul_right _ (by omega)
        _ = (acc + 1) * 2 ^ (b :: rest).length := by
            simp [List.length_cons, Nat.pow_succ]
            ring

theorem or_set_bit :
    ∀ pos : Nat, pos < 8 → ∀ v : Nat, v < 2 ^ pos →
      (v * 2 ^ (8 - pos)) ||| (1 <<< (7 - pos)) = v * 2 ^ (8 - pos) + 2 ^ (7 - pos) := by
  decide

theorem pack_bits_eq_spec_aux :
    ∀ (bits pre : List Nat), pre.length < 8 →
      pack_bits bits (bits_to_byte (pre ++ List.replicate (8 - pre.length) 48)) pre.length
        = pack_msb_spec (pre ++ bits) := by
  intro bits
  induction bits with
  | nil =>
      intro pre hpre
      cases pre with
      | nil => simp [pack_bits, pack_msb_spec]
      | cons p ps =>
          rw [List.append_nil]
          simp only [pack_bits, List.length_cons]
          rw [if_pos (by omega)]
          rw [pack_msb_spec_ne_nil _ (by simp)]
          rw [List.take_of_length_le (by simp only [List.length_cons] at hpre ⊢; omega),
            List.drop_of_length_le (by simp only [List.length_cons] at hpre ⊢; omega)]
          rw [pack_msb_spec]
          simp [List.length_cons]
  | cons b rest ih =>
      intro pre hpre
      have hv : bits_to_byte pre < 2 ^ pre.length := bits_to_byte_lt pre
      have hbuf : bits_to_byte (pre ++ List.replicate (8 - pre.length) 48)
          = bits_to_byte pre * 2 ^ (8 - pre.length) := bits_to_byte_pad _ _
      have hstep : (if b = 49 then
            bits_to_byte (pre ++ List.replicate (8 - pre.length) 48) ||| (1 <<< (7 - pre.length))
          else bits_to_byte (pre ++ List.replicate (8 - pre.length) 48))
          = bits_to_byte ((pre ++ [b]) ++ List.replicate (8 - (pre.length + 1)) 48) := by
        have hrhs : bits_to_byte ((pre ++ [b]) ++ List.replicate (8 - (pre.length + 1)) 48)
            = (2 * bits_to_byte pre + bit_val b) * 2 ^ (7 - pre.length) := by
          rw [bits_to_byte_pad, bits_to_byte_snoc,
            show 8 - (pre.length + 1) = 7 - pre.length from by omega]
        rw [hrhs, hbuf]
        by_cases hb : b = 49
        · rw [if_pos hb, or_set_bit pre.length hpre _ hv, hb]
          rw [show bit_val 49 = 1 from rfl,
            show 8 - pre.length = (7 - pre.length) + 1 from by omega]
          ring
        · rw [if_neg hb]
          simp only [bit_val, if_neg hb]
          rw [show 8 - pre.length = (7 - pre.length) + 1 from by omega]
          ring
      simp only [pack_bits]
      rw [hstep]
      by_cases hfull : pre.length + 1 = 8
      · rw [if_pos hfull]
        have hpre7 : pre.length = 7 := by omega
        have h0 : bits_to_byte (List.replicate (8 - 0) 48) = 0 := by decide
        have htail := ih [] (by simp)
        simp only [List.length_nil, List.nil_append] at htail
        rw [h0] at htail
        rw [htail]
        have hsplit : pre ++ b :: rest = (pre ++ [b]) ++ rest := by simp
        rw [hsplit]
        rw [pack_msb_spec_ne_nil ((pre ++ [b]) ++ rest) (by simp)]
        rw [List.take_left' (by simp [hpre7]), List.drop_left' (by simp [hpre7])]
        rw [show (pre ++ [b]).length = 8 from by simp [hpre7]]
        rw [show (8 : Nat) - (pre.length + 1) = 0 from by omega]
      · rw [if_neg hfull]
        have hlen : (pre ++ [b]).length = pre.length + 1 := by simp
        have h2 := ih (pre ++ [b]) (by rw [hlen]; omega)
        rw [hlen] at h2
        rw [h2]
        simp

/-! ### Parsing back the written header -/

/-- The (symbol, code) pairs the writer emits, in emission order. -/
def dict_pairs (dict : Nat → List Nat) : List (Nat × List Nat) :=
  ((List.range 256).filter (fun i => !(dict i).isEmpty)).map (fun i => (i, dict i))

/-- Grafting a sequence of (symbol, code) pairs into a tree, in order, as
the reader's entry loop does. -/
def insert_all (root : Node) (pairs : List (Nat × List Nat)) : Node :=
  pairs.foldl (fun n p => insert_code n p.2 p.1) root

theorem dict_entries_eq (dict : Nat → List Nat) :
    dict_entries dict
      = ((dict_pairs dict).map (fun p => p.1 :: (p.2.length % 256) :: p.2)).flatten := by
  unfold dict_entries dict_pairs
  rw [List.map_map]
  rfl

theorem dict_size_eq (dict : Nat → List Nat) : dict_size dict = (dict_pairs dict).length := by
  unfold dict_size dict_pairs
  rw [List.length_map]

theorem read_entries_of_pairs :
    ∀ (pairs : List (Nat × List Nat)) (root : Node) (tail : List Nat),
      (∀ p ∈ pairs, p.2.length < 128) →
      read_dict_entries pairs.length root
          ((pairs.map (fun p => p.1 :: (p.2.length % 256) :: p.2)).flatten ++ tail)
        = some (insert_all root pairs, tail) := by
  intro pairs
  induction pairs with
  | nil => intro root tail _; simp [read_dict_entries, insert_all]
  | cons e rest ih =>
      intro root tail h
      have hlen : e.2.length < 128 := h e (List.mem_cons_self e rest)
      have hmod : e.2.length % 256 = e.2.length := Nat.mod_eq_of_lt (by omega)
      simp only [List.map_cons, List.flatten_cons, List.length_cons, List.cons_append,
        List.append_assoc]
      rw [read_dict_entries, hmod]
      rw [if_pos ⟨hlen, by simp⟩]
      rw [List.take_left, List.drop_left]
      rw [show insert_all root (e :: rest)
        = insert_all (insert_code root e.2 e.1) rest from rfl]
      exact ih _ _ (fun p hp => h p (List.mem_cons_of_mem e hp))

theorem signed_char_small {k : Nat} (hk : k < 128) : (signed_char k).toNat = k := by
  unfold signed_char
  rw [if_pos hk]
  simp

theorem header_parse (dict : Nat → List Nat) (enc : List Nat)
    (hk : dict_size dict < 128)
    (hlen : ∀ p ∈ dict_pairs dict, p.2.length < 128) :
    read_huffman_dictionary (write_compressed_file dict enc) initial_root
      = some (insert_all initial_root (dict_pairs dict), pack_bits enc 0 0) := by
  unfold write_compressed_file
  rw [Nat.mod_eq_of_lt (show dict_size dict < 256 from by omega)]
  simp only [read_huffman_dictionary]
  rw [signed_char_small hk]
  rw [dict_size_eq, dict_entries_eq]
  exact read_entries_of_pairs _ _ _ hlen

theorem dict_pairs_length_lt (dict : Nat → List Nat)
    (h : ∀ i, i < 256 → (dict i).length < 128) :
    ∀ p ∈ dict_pairs dict, p.2.length < 128 := by
  intro p hp
  unfold dict_pairs at hp
  simp only [List.mem_map, List.mem_filter, List.mem_range] at hp
  obtain ⟨i, ⟨hi, _⟩, rfl⟩ := hp
  exact h i hi

/-! ### Remaining support lemmas -/

theorem drop_length_sub_one : ∀ l : List Nat, l.drop (l.length - 1) = l.getLast?.toList := by
  intro l
  induction l with
  | nil => rfl
  | cons a t ih =>
      cases t with
      | nil => rfl
      | cons b t2 =>
          rw [show (a :: b :: t2).length - 1 = ((b :: t2).length - 1) + 1 from by simp]
          rw [List.drop_succ_cons, ih, List.getLast?_cons_cons]

/-! ### Claims -/

/-- C1: the round-trip property `decompress(compress(S)) = S` fails on the
code: for S = "aab" the compressed file is decoded from its last byte with
the whole file size as the bit budget, so the zero padding decodes as extra
symbols and "aabbbbbb" comes back instead of "aab". -/
theorem roundtrip_fails_on_aab :
    (compress_file [97, 97, 98]).bind decompress_file
      = some [97, 97, 98, 98, 98, 98, 98, 98] ∧
    ([97, 97, 98, 98, 98, 98, 98, 98] : List Nat) ≠ [97, 97, 98] := by
  exact ⟨by rfl, by decide⟩

/-- C2: after reading the dictionary, `decompress_file` seeks to one byte
before end of file and passes the total file size in bytes as
`encoded_length`, so the decoded output depends only on the parsed
dictionary, the file's length and its final byte — not on any other payload
byte. -/
theorem decompress_decodes_only_last_byte :
    (∀ file : List Nat,
      decompress_file file
        = (read_huffman_dictionary file initial_root).bind
            (fun p => decode_data (file.drop (file.length - 1)) p.1 file.length)) ∧
    (∀ f1 f2 : List Nat, f1.length = f2.length → f1.getLast? = f2.getLast? →
      (read_huffman_dictionary f1 initial_root).map Prod.fst
        = (read_huffman_dictionary f2 initial_root).map Prod.fst →
      decompress_file f1 = decompress_file f2) := by
  constructor
  · intro file
    cases h : read_huffman_dictionary file initial_root with
    | none => simp [decompress_file, h]
    | some p =>
        obtain ⟨r, s⟩ := p
        simp [decompress_file, h]
  · intro f1 f2 hlen hlast hdict
    cases h1 : read_huffman_dictionary f1 initial_root with
    | none =>
        rw [h1] at hdict
        cases h2 : read_huffman_dictionary f2 initial_root with
        | none => simp [decompress_file, h1, h2]
        | some q => rw [h2] at hdict; simp at hdict
    | some p =>
        obtain ⟨r1, s1⟩ := p
        rw [h1] at hdict
        cases h2 : read_huffman_dictionary f2 initial_root with
        | none => rw [h2] at hdict; simp at hdict
        | some q =>
            obtain ⟨r2, s2⟩ := q
            rw [h2] at hdict
            simp at hdict
            simp only [decompress_file, h1, h2]
            rw [drop_length_sub_one, drop_length_sub_one, hlast, hlen, hdict]

/-- Witness for C2: two files with the same dictionary, length and final
byte but a different middle payload byte decompress identically. -/
theorem decompress_decodes_only_last_byte_witness :
    decompress_file [1, 97, 1, 48, 170, 0] = decompress_file [1, 97, 1, 48, 85, 0] :=
  decompress_decodes_only_last_byte.2 [1, 97, 1, 48, 170, 0] [1, 97, 1, 48, 85, 0] rfl rfl rfl

/-- C3: the empty input is not short-circuited: the histogram is all zero,
every slot stays empty, and `build_huffman_tree` calls `pq.top()` on an
empty priority queue — undefined behaviour, modelled as `none` — so
`compress_file ""` reaches an erroneous state instead of an explicit
empty-file policy. -/
theorem empty_input_hits_empty_queue_top :
    (∀ c, fill_frequency [] (fun _ => 0) c = 0) ∧
    build_huffman_tree (fun _ => 0) = none ∧
    compress_file [] = none := by
  exact ⟨fun _ => rfl, by rfl, by rfl⟩

/-- C4: for the single-symbol input "aaaa" the tree is a lone leaf, the
generator assigns it the empty code (not a one-bit code), the written
dictionary therefore has zero entries (the file is the single byte 0), and
decompressing that file dereferences a null child (modelled `none`) instead
of returning "aaaa". -/
theorem single_symbol_gets_empty_code :
    build_huffman_tree (fill_frequency [97, 97, 97, 97] (fun _ => 0))
      = some (Node.node 97 4 .null .null) ∧
    generate_dictionary (Node.node 97 4 .null .null) [] (fun _ => []) 97 = [] ∧
    compress_file [97, 97, 97, 97] = some [0] ∧
    decompress_file [0] = none := by
  exact ⟨by rfl, by rfl, by rfl, by rfl⟩

/-- C5: a malformed header whose first entry's code "0" is a prefix of its
second entry's code "01" is accepted without any error: the reader silently
grafts 'b' beneath the 'a' leaf, and decoding 'a's own code then emits
nothing — a silent misdecode, not a distinct malformed-header error. -/
theorem code_overlap_header_silently_accepted :
    read_huffman_dictionary [2, 97, 1, 48, 98, 2, 48, 49] initial_root
      = some (Node.node 43 0
          (Node.node 97 0 .null (Node.node 98 0 .null .null)) .null, []) ∧
    decode_data [0]
      (Node.node 43 0 (Node.node 97 0 .null (Node.node 98 0 .null .null)) .null) 1
      = some [] := by
  exact ⟨by rfl, by rfl⟩

/-- C6 counterexample: an input with 128 distinct byte values is compressed
with a leading count byte of 128, but the reader treats that byte as the
negative signed `char` -128, so its entry loop runs zero times and the
reconstructed tree is still the bare initial root: the count read back is
not the count written. -/
theorem count128_write_read_mismatch :
    (compress_file (List.range 128)).bind List.head? = some 128 ∧
    (signed_char 128).toNat = 0 ∧
    (compress_file (List.range 128)).bind
      (fun F => (read_huffman_dictionary F initial_root).map Prod.fst)
      = some initial_root := by
  exact ⟨by rfl, by decide, by rfl⟩

/-- C6 (amended): for dictionaries with between 1 and 127 coded symbols
(and code lengths below 128), the leading byte written equals the count,
the reader recovers that same count from the byte, and it then reads
exactly the written (symbol, bit-length, code) entries, leaving the packed
payload. -/
theorem header_count_field_small_ok (dict : Nat → List Nat) (enc : List Nat)
    (h1 : 1 ≤ dict_size dict) (hk : dict_size dict ≤ 127)
    (hlen : ∀ i, i < 256 → (dict i).length < 128) :
    (write_compressed_file dict enc).head? = some (dict_size dict) ∧
    (signed_char (dict_size dict)).toNat = dict_size dict ∧
    read_huffman_dictionary (write_compressed_file dict enc) initial_root
      = some (insert_all initial_root (dict_pairs dict), pack_bits enc 0 0) := by
  refine ⟨?_, signed_char_small (by omega),
    header_parse dict enc (by omega) (dict_pairs_length_lt dict hlen)⟩
  unfold write_compressed_file
  rw [Nat.mod_eq_of_lt (show dict_size dict < 256 from by omega)]
  rfl

/-- Witness for the amended C6 at a one-entry dictionary. -/
theorem header_count_field_small_ok_witness :
    (write_compressed_file (Function.update (fun _ => []) 97 [48]) [49]).head?
      = some (dict_size (Function.update (fun _ => []) 97 [48])) ∧
    (signed_char (dict_size (Function.update (fun _ => []) 97 [48]))).toNat
      = dict_size (Function.update (fun _ => []) 97 [48]) ∧
    read_huffman_dictionary
      (write_compressed_file (Function.update (fun _ => []) 97 [48]) [49]) initial_root
      = some (insert_all initial_root (dict_pairs (Function.update (fun _ => []) 97 [48])),
          pack_bits [49] 0 0) :=
  header_count_field_small_ok (Function.update (fun _ => []) 97 [48]) [49]
    (by decide) (by decide) (by decide)

/-- C7: the dictionary generated from a built Huffman tree is prefix-free:
for two different symbols with non-empty codes, the first symbol's code is
never an initial segment of the second's. -/
theorem generated_dictionary_codes_disjoint
    (S : List Nat) (t : Node)
    (hbuild : build_huffman_tree (fill_frequency S (fun _ => 0)) = some t)
    (a b : Nat) (hab : a ≠ b)
    (ha : generate_dictionary t [] (fun _ => []) a ≠ [])
    (hb : generate_dictionary t [] (fun _ => []) b ≠ []) :
    ¬ ∃ s, generate_dictionary t [] (fun _ => []) a ++ s
        = generate_dictionary t [] (fun _ => []) b := by
  intro hex
  obtain ⟨s, hs⟩ := hex
  rw [generate_dictionary_eq] at ha hb hs
  rcases foldl_update_lookup [] (codewords t) (fun _ => []) a with h | ⟨p, hp, hpa⟩
  · exact ha h
  rcases foldl_update_lookup [] (codewords t) (fun _ => []) b with h | ⟨q, hq, hqb⟩
  · exact hb h
  rw [hpa, hqb] at hs
  simp only [List.nil_append] at hs
  obtain ⟨hab', _⟩ := codewords_no_overlap t hp hq ⟨s, hs⟩
  exact hab hab'

/-- Witness for C7 on the two-symbol input "ab". -/
theorem generated_dictionary_codes_disjoint_witness :
    ¬ ∃ s, generate_dictionary
        (Node.node 43 2 (Node.node 97 1 .null .null) (Node.node 98 1 .null .null))
        [] (fun _ => []) 97 ++ s
      = generate_dictionary
        (Node.node 43 2 (Node.node 97 1 .null .null) (Node.node 98 1 .null .null))
        [] (fun _ => []) 98 :=
  generated_dictionary_codes_disjoint [97, 98]
    (Node.node 43 2 (Node.node 97 1 .null .null) (Node.node 98 1 .null .null))
    rfl 97 98 (by decide) (by decide) (by decide)

/-- C8: the encoder concatenates the per-byte codes in input order, and the
packing loop equals the spec-side packer: bits are grouped in eights
MSB-first (the sequence's first bit lands in bit 7 of the first payload
byte) and the final byte's unused low bits are zero padding. -/
theorem packer_concatenates_and_packs_msb_first :
    (∀ (text : List Nat) (dict : Nat → List Nat),
      encode_text text dict = (text.map dict).flatten) ∧
    (∀ bits : List Nat, pack_bits bits 0 0 = pack_msb_spec bits) := by
  constructor
  · intro text dict
    induction text with
    | nil => rfl
    | cons ch rest ih => simp [encode_text, ih]
  · intro bits
    have h := pack_bits_eq_spec_aux bits [] (by simp)
    simp only [List.length_nil, Nat.sub_zero, List.nil_append] at h
    rw [show bits_to_byte (List.replicate 8 48) = 0 from by decide] at h
    exact h

/-- C9: every tree returned by `build_huffman_tree` is well formed: each
node has zero children or exactly two, and each two-child node's frequency
is the sum of its children's frequencies. -/
theorem built_tree_well_formed (frequency : Nat → Nat) (t : Node)
    (h : build_huffman_tree frequency = some t) : well_formed t = true := by
  have key : ∀ x ∈ build_loop (init_queue frequency),
      well_formed x = true ∧ x ≠ Node.null := by
    intro x hx
    unfold build_loop at hx
    refine build_loop_fuel_invariant (fun x => well_formed x = true ∧ x ≠ Node.null)
      ?_ _ _ ?_ x hx
    · rintro a b ⟨hwa, hna⟩ ⟨hwb, hnb⟩
      refine ⟨?_, by simp⟩
      cases a with
      | null => exact absurd rfl hna
      | node c1 f1 l1 r1 =>
          cases b with
          | null => exact absurd rfl hnb
          | node c2 f2 l2 r2 =>
              simp only [well_formed, Node.frequency, beq_self_eq_true, Bool.true_and,
                Bool.and_eq_true]
              exact ⟨hwa, hwb⟩
    · intro y hy
      obtain ⟨i, hi⟩ := mem_init_queue hy
      subst hi
      exact ⟨by simp [well_formed], by simp⟩
  unfold build_huffman_tree at h
  cases hb : build_loop (init_queue frequency) with
  | nil => rw [hb] at h; simp at h
  | cons n rest =>
      rw [hb] at h
      simp only [Option.some.injEq] at h
      subst h
      exact (key n (by rw [hb]; exact List.mem_cons_self n rest)).1

/-- Witness for C9 on the tree built from "aab". -/
theorem built_tree_well_formed_witness :
    well_formed (Node.node 43 3 (Node.node 98 1 .null .null)
      (Node.node 97 2 .null .null)) = true :=
  built_tree_well_formed (fill_frequency [97, 97, 98] (fun _ => 0))
    (Node.node 43 3 (Node.node 98 1 .null .null) (Node.node 97 2 .null .null)) rfl

/-- C10: the header's code strings are textual — every generated code byte
is ASCII '0' (48) or '1' (49), one byte per bit — and reading back a
written header consumes exactly the writer's entries, byte for byte,
grafting each (symbol, code) pair with '0' descending left and anything
else descending right, and leaves exactly the packed payload. -/
theorem header_textual_codes_agreement :
    (∀ (t : Node) (x b : Nat),
      b ∈ generate_dictionary t [] (fun _ => []) x → b = 48 ∨ b = 49) ∧
    (∀ (dict : Nat → List Nat) (enc : List Nat),
      dict_size dict < 128 → (∀ i, i < 256 → (dict i).length < 128) →
      read_huffman_dictionary (write_compressed_file dict enc) initial_root
        = some (insert_all initial_root (dict_pairs dict), pack_bits enc 0 0)) := by
  constructor
  · intro t x b hb
    rw [generate_dictionary_eq] at hb
    rcases foldl_update_lookup [] (codewords t) (fun _ => []) x with h | ⟨p, hp, hval⟩
    · rw [h] at hb; simp at hb
    · rw [hval] at hb
      simp only [List.nil_append] at hb
      exact codewords_bits t hp b hb
  · intro dict enc hk hlen
    exact header_parse dict enc hk (dict_pairs_length_lt dict hlen)

/-- Witness for C10 at a one-entry dictionary with code "0". -/
theorem header_textual_codes_agreement_witness :
    read_huffman_dictionary
      (write_compressed_file (Function.update (fun _ => []) 97 [48]) [49]) initial_root
      = some (insert_all initial_root (dict_pairs (Function.update (fun _ => []) 97 [48])),
          pack_bits [49] 0 0) :=
  header_textual_codes_agreement.2 (Function.update (fun _ => []) 97 [48]) [49]
    (by decide) (by decide)
